import Mathlib

/-
Verification development for the native numerical/ingestion core
(Hart.MCP.Native): seed → 4-sphere projection (atom_seed.c), the 4D
Hilbert codec (hilbert.c, hilbert_curve.cpp), the content-hash input
streams (content_hash.c), and the bulk-ingestion pipeline
(bulk_ingestion.cpp).

Modelling conventions:
- C `double` arithmetic is modelled exactly: by ℝ where transcendental
  functions occur (atom_seed.c), by ℚ where only field operations occur
  (hilbert.c quantization, sparsity accounting).  Every IEEE-754 double
  is a rational, so ℚ contains all actual inputs.
- Machine integers are ℕ / ℤ; the operations used by this code never
  overflow (shifts stay below 2^64, subtractions are guarded), which is
  noted where relevant.
- BLAKE3 is an external library; the development models the exact byte
  stream each call site feeds to the hasher, since digest equality or
  inequality of interest here is decided by stream equality.
-/

namespace HartMCP

/- ====================  atom_seed.c : data model  ==================== -/

/-- The tagged seed union from atom_seed.h.  The C `AtomSeed` is a
`SeedType` discriminator plus a union; each constructor pairs the
discriminator with the union member that the code reads for it.
`other` covers every discriminator that is not `SEED_UNICODE` (0),
`SEED_INTEGER` (1) or `SEED_FLOAT_BITS` (2) — including
`SEED_COMPOSITION` (3) — together with the (unread) raw union bits. -/
inductive AtomSeed where
  | unicode (codepoint : ℕ)
  | integer (value : ℤ)
  | floatBits (bits : ℕ)
  | other (tag : ℤ) (raw : ℕ)

/-- Point4D from types.h: four exact double components, modelled in ℝ. -/
structure Point4D where
  x : ℝ
  y : ℝ
  z : ℝ
  m : ℝ

/-- HYPERSPHERE_RADIUS from atom_seed.c. -/
noncomputable def HYPERSPHERE_RADIUS : ℝ := 1.0

/-- The M_PI macro defined in atom_seed.c (a decimal literal, not ℝ's π). -/
noncomputable def M_PI : ℝ := 3.14159265358979323846

/-- The GOLDEN_RATIO macro from atom_seed.c (decimal literal). -/
noncomputable def goldenRatio : ℝ := 1.6180339887498948482

/-- The GOLDEN_ANGLE macro from atom_seed.c. -/
noncomputable def goldenAngle : ℝ := 2.0 * M_PI / (goldenRatio * goldenRatio)

/-- PSI_SEGMENT_SIZE from atom_seed.c: 16 major categories. -/
noncomputable def PSI_SEGMENT_SIZE : ℝ := M_PI / 16.0

/-- get_category from atom_seed.c: coarse Unicode block partition. -/
def get_category (codepoint : ℕ) : ℕ :=
  if codepoint ≤ 0x1F ∨ codepoint = 0x7F then 0       -- Control
  else if 0x30 ≤ codepoint ∧ codepoint ≤ 0x39 then 1  -- Digits
  else if 0x41 ≤ codepoint ∧ codepoint ≤ 0x5A then 2  -- Upper
  else if 0x61 ≤ codepoint ∧ codepoint ≤ 0x7A then 3  -- Lower
  else if 0x20 ≤ codepoint ∧ codepoint ≤ 0x7E then 4  -- ASCII punctuation
  else if 0x80 ≤ codepoint ∧ codepoint ≤ 0x024F then 5 -- Latin extended
  else if 0x0370 ≤ codepoint ∧ codepoint ≤ 0x03FF then 6 -- Greek
  else if 0x0400 ≤ codepoint ∧ codepoint ≤ 0x04FF then 7 -- Cyrillic
  else if 0x4E00 ≤ codepoint ∧ codepoint ≤ 0x9FFF then 8 -- CJK
  else if 0x1F600 ≤ codepoint then 9                   -- Emoji
  else 10                                              -- Other

/-- C fmod for the nonnegative dividends and positive divisors used in
atom_seed.c (there fmod's truncation toward zero agrees with ⌊·⌋). -/
noncomputable def cFmod (a b : ℝ) : ℝ := a - b * (⌊a / b⌋ : ℤ)

/-- Result of the two while-loops in compute_coords_from_seed that bring
phi into [0, 2·M_PI) by repeatedly adding/subtracting 2·M_PI. -/
noncomputable def normPhi (phi : ℝ) : ℝ :=
  phi - 2.0 * M_PI * (⌊phi / (2.0 * M_PI)⌋ : ℤ)

/-- The tail of compute_coords_from_seed shared by all recognised seed
types: clamp psi and theta into [0.001, M_PI − 0.001], reduce phi into
[0, 2·M_PI), and convert spherical → Cartesian. -/
noncomputable def finishPoint (psi theta phi : ℝ) : Point4D :=
  let psi := if psi < 0.001 then 0.001 else psi
  let psi := if psi > M_PI - 0.001 then M_PI - 0.001 else psi
  let theta := if theta < 0.001 then 0.001 else theta
  let theta := if theta > M_PI - 0.001 then M_PI - 0.001 else theta
  let phi := normPhi phi
  { x := HYPERSPHERE_RADIUS * Real.sin psi * Real.sin theta * Real.cos phi
    y := HYPERSPHERE_RADIUS * Real.sin psi * Real.sin theta * Real.sin phi
    z := HYPERSPHERE_RADIUS * Real.sin psi * Real.cos theta
    m := HYPERSPHERE_RADIUS * Real.cos psi }

/-- compute_coords_from_seed from atom_seed.c.  For SEED_INTEGER,
`(uint64_t)(is_negative ? -val : val)` equals `val.natAbs` for every
int64 value including INT64_MIN (where the negation wraps to 2^63). -/
noncomputable def compute_coords_from_seed : AtomSeed → Point4D
  | .unicode cp =>
      let category := get_category cp
      let psi := ((category : ℝ) + 0.5) * PSI_SEGMENT_SIZE
      let index_in_cat := cp % 10000
      let theta := cFmod ((index_in_cat : ℝ) * goldenAngle) M_PI
      let phi := cFmod ((cp : ℝ) * goldenAngle * 1.5) (2.0 * M_PI)
      let perturb := ((cp % 1000 : ℕ) : ℝ) / 100000.0
      finishPoint (psi + perturb * PSI_SEGMENT_SIZE * 0.1) theta phi
  | .integer val =>
      let abs_val : ℕ := val.natAbs
      let psi := if val < 0 then M_PI * 0.25 else M_PI * 0.75
      let theta := cFmod ((abs_val : ℝ) * goldenAngle) M_PI
      let phi := cFmod ((abs_val : ℝ) * goldenAngle * goldenRatio) (2.0 * M_PI)
      finishPoint (psi + ((abs_val % 1000 : ℕ) : ℝ) / 10000.0) theta phi
  | .floatBits bits =>
      let sign := (bits >>> 63) &&& 0x1
      let exponent := (bits >>> 52) &&& 0x7FF
      let mantissa := bits &&& 0xFFFFFFFFFFFFF
      let psi := ((exponent : ℝ) / 2048.0) * M_PI
      let theta := (((mantissa >>> 32 : ℕ) : ℝ) / ((0xFFFFF : ℕ) : ℝ)) * M_PI
      let phi := (((mantissa &&& 0xFFFFFFFF : ℕ) : ℝ) / ((0xFFFFFFFF : ℕ) : ℝ)) * (2.0 * M_PI)
      finishPoint psi theta (if sign ≠ 0 then phi + M_PI else phi)
  | .other _ _ =>
      -- Invalid seed type - return origin-adjusted point
      { x := 0.0, y := 0.0, z := 0.0, m := HYPERSPHERE_RADIUS }

/-- verify_on_sphere from atom_seed.c (the C function returns the int
truthiness of this proposition). -/
noncomputable def verify_on_sphere (p : Point4D) (tolerance : ℝ) : Prop :=
  |p.x * p.x + p.y * p.y + p.z * p.z + p.m * p.m -
    HYPERSPHERE_RADIUS * HYPERSPHERE_RADIUS| < tolerance

/-- Discriminator recognition: `true` exactly on the `default:` branch of
the switch in compute_coords_from_seed. -/
def isUnrecognizedSeed : AtomSeed → Bool
  | .other _ _ => true
  | _ => false

/- ====================  hilbert.c : 4D Hilbert codec  ==================== -/

/-- HilbertIndex from types.h: 128 bits as two uint64 halves.  The
fields are ℕ; every value the code ever stores in them is < 2^64 and no
operation here wraps. -/
structure HilbertIndex where
  high : ℕ
  low : ℕ
deriving DecidableEq

/-- HILBERT_BITS_PER_DIM from hilbert.h. -/
def HILBERT_BITS_PER_DIM : ℕ := 16

/-- binary_to_gray_4 from hilbert.c. -/
def binary_to_gray_4 (n : ℕ) : ℕ := n ^^^ (n >>> 1)

/-- gray_to_binary_4 from hilbert.c. -/
def gray_to_binary_4 (g : ℕ) : ℕ :=
  let n := g ^^^ (g >>> 2)
  n ^^^ (n >>> 1)

/-- quantize_coord from hilbert.c.  Doubles are modelled as exact
rationals; the final `(uint32_t)` cast truncates a nonnegative value,
i.e. takes its floor. -/
def quantize_coord (value lo hi : ℚ) : ℕ :=
  let normalized := (value - lo) / (hi - lo)
  let normalized := if normalized < 0 then 0 else normalized
  let normalized := if normalized > 1 then 1 else normalized
  let max_val : ℕ := (1 <<< HILBERT_BITS_PER_DIM) - 1
  (⌊normalized * (max_val : ℚ) + 0.5⌋).toNat

/-- dequantize_coord from hilbert.c. -/
def dequantize_coord (quantized : ℕ) (lo hi : ℚ) : ℚ :=
  let max_val : ℕ := (1 <<< HILBERT_BITS_PER_DIM) - 1
  let normalized := (quantized : ℚ) / (max_val : ℚ)
  normalized * (hi - lo) + lo

/-- RotationState from hilbert.c.  The C `uint8_t perm[4]` always holds
a permutation of {0,1,2,3} (it starts as the identity and is only ever
changed by swapping two entries), so it is modelled as a permutation of
`Fin 4`; `flip` is the 4-bit flip mask. -/
structure RotationState where
  perm : Equiv.Perm (Fin 4)
  flip : ℕ

/-- INITIAL_STATE from hilbert.c: identity permutation, zero flips. -/
def INITIAL_STATE : RotationState := { perm := Equiv.refl (Fin 4), flip := 0 }

/-- The axis-finding loop of update_rotation: the highest i < 4 with bit
i of the gray code set (0 if none). -/
def findAxis (gray_code : ℕ) : Fin 4 :=
  ([0, 1, 2, 3] : List (Fin 4)).foldl
    (fun axis i => if gray_code &&& (1 <<< i.val) ≠ 0 then i else axis) 0

/-- update_rotation from hilbert.c: if the gray code is not 0 and not
15, swap perm[0] with perm[axis] and toggle the flip bit of the value
d1 that was in perm[0]. -/
def update_rotation (state : RotationState) (gray_code : ℕ) : RotationState :=
  if gray_code ≠ 0 ∧ gray_code ≠ 15 then
    let axis := findAxis gray_code
    let d1 := state.perm 0
    { perm := (Equiv.swap 0 axis).trans state.perm
      flip := state.flip ^^^ (1 <<< d1.val) }
  else state

/-- The inner gather loop of coords_to_hilbert at one level: bit `bit`
of each (permuted) quantized axis, packed into a 4-bit value. -/
def gatherBits (coords : Fin 4 → ℕ) (perm : Equiv.Perm (Fin 4)) (bit : ℕ) : ℕ :=
  ([0, 1, 2, 3] : List (Fin 4)).foldl
    (fun bits d => if coords (perm d) &&& (1 <<< bit) ≠ 0
                   then bits ||| (1 <<< d.val) else bits) 0

/-- The level loop of coords_to_hilbert, over the given list of bit
positions (the C loop runs bit = HILBERT_BITS_PER_DIM−1 down to 0). -/
def encodeLoop (coords : Fin 4 → ℕ) : List ℕ → HilbertIndex × RotationState →
    HilbertIndex × RotationState
  | [], st => st
  | bit :: restBits, (result, state) =>
      let bits := gatherBits coords state.perm bit
      let bits := bits ^^^ state.flip
      let gray := binary_to_gray_4 bits
      let shift_amount := bit * 4
      let result :=
        if shift_amount < 64 then
          { result with low := result.low ||| (gray <<< shift_amount) }
        else
          { result with high := result.high ||| (gray <<< (shift_amount - 64)) }
      encodeLoop coords restBits (result, update_rotation state gray)

/-- The list of levels processed by the C loops: 15, 14, …, 0. -/
def hilbertLevels : List ℕ := (List.range HILBERT_BITS_PER_DIM).reverse

/-- coords_to_hilbert from hilbert.c. -/
def coords_to_hilbert (x y z m : ℚ) : HilbertIndex :=
  let coords : Fin 4 → ℕ :=
    ![quantize_coord x (-1) 1, quantize_coord y (-1) 1,
      quantize_coord z (-1) 1, quantize_coord m (-1) 1]
  (encodeLoop coords hilbertLevels ({ high := 0, low := 0 }, INITIAL_STATE)).1

/-- The inner scatter loop of hilbert_to_coords at one level: for each d
with bit d of `bits` set, set bit `bit` of coords[perm d]. -/
def scatterBits (bits : ℕ) (perm : Equiv.Perm (Fin 4)) (bit : ℕ)
    (coords : Fin 4 → ℕ) : Fin 4 → ℕ :=
  ([0, 1, 2, 3] : List (Fin 4)).foldl
    (fun cs d => if bits &&& (1 <<< d.val) ≠ 0
                 then Function.update cs (perm d) (cs (perm d) ||| (1 <<< bit))
                 else cs) coords

/-- The level loop of hilbert_to_coords. -/
def decodeLoop (h : HilbertIndex) : List ℕ → (Fin 4 → ℕ) × RotationState →
    (Fin 4 → ℕ) × RotationState
  | [], st => st
  | bit :: restBits, (coords, state) =>
      let shift_amount := bit * 4
      let gray :=
        if shift_amount < 64 then (h.low >>> shift_amount) &&& 0xF
        else (h.high >>> (shift_amount - 64)) &&& 0xF
      let bits := gray_to_binary_4 gray
      let bits := bits ^^^ state.flip
      let coords := scatterBits bits state.perm bit coords
      decodeLoop h restBits (coords, update_rotation state gray)

/-- hilbert_to_coords from hilbert.c (the four out-parameters as a
tuple). -/
def hilbert_to_coords (h : HilbertIndex) : ℚ × ℚ × ℚ × ℚ :=
  let coords := (decodeLoop h hilbertLevels ((fun _ => 0), INITIAL_STATE)).1
  (dequantize_coord (coords 0) (-1) 1, dequantize_coord (coords 1) (-1) 1,
   dequantize_coord (coords 2) (-1) 1, dequantize_coord (coords 3) (-1) 1)

/-- hilbert_distance from hilbert.c: guarded uint64 subtraction on the
low halves only (the guard makes ℕ subtraction exact). -/
def hilbert_distance (a b : HilbertIndex) : ℕ :=
  if a.low > b.low then a.low - b.low else b.low - a.low

/-- hart_hilbert_distance from hilbert_curve.cpp (non-null pointers):
absolute difference of the high halves, falling back to the low halves
when the high difference is zero. -/
def hart_hilbert_distance (a b : HilbertIndex) : ℕ :=
  let diff_high := if a.high > b.high then a.high - b.high else b.high - a.high
  if diff_high > 0 then diff_high
  else if a.low > b.low then a.low - b.low else b.low - a.low

/- ============  content_hash.c : digest input streams  ============ -/

/-- The little-endian memory bytes of a uint32, exactly the buffer that
`blake3_hasher_update(&hasher, &seed, sizeof(uint32_t))` reads in
compute_seed_hash (content_hash.c). -/
def le32Bytes (v : ℕ) : List ℕ :=
  [v &&& 0xFF, (v >>> 8) &&& 0xFF, (v >>> 16) &&& 0xFF, (v >>> 24) &&& 0xFF]

/-- The complete byte stream fed to BLAKE3 by compute_seed_hash(seed):
just the four little-endian bytes of the 32-bit seed value.  The digest
is BLAKE3-256 of this stream; BLAKE3 itself is an external library and
a fixed deterministic function of its input stream. -/
def compute_seed_hash_input (seed : ℕ) : List ℕ := le32Bytes seed

/-- Hash-input stream of the Unicode ingestion path: hart_seed_unicode
computes `atom.hash = compute_seed_hash(cp)` (bulk_ingestion.cpp:492). -/
def unicode_path_hash_input (cp : ℕ) : List ℕ := compute_seed_hash_input cp

/-- Hash-input stream of the tensor ingestion path: hart_ingest_safetensor
computes `atom.hash = compute_seed_hash(bits)` for the 32-bit float bit
pattern (bulk_ingestion.cpp:699). -/
def float_path_hash_input (bits : ℕ) : List ℕ := compute_seed_hash_input bits

/- ============  bulk_ingestion.cpp : row writer  ============ -/

/-- COPY_BATCH_SIZE from bulk_ingestion.cpp. -/
def COPY_BATCH_SIZE : ℕ := 50000

/-- AtomData from bulk_ingestion.cpp, restricted to the fields the row
writer reads.  `x,y,z,m` are omitted: write_atom_row consumes them only
through point_to_wkt (libc snprintf "%.17g" float formatting, external),
whose output bytes are passed to the model separately as `wkt`.
`hash` is the fixed 32-byte ContentHash array. -/
structure AtomData where
  hilbert_high : ℕ    -- int64 column, holds a uint64 Hilbert half
  hilbert_low : ℕ
  is_constant : Bool
  seed_value : ℕ      -- uint32 in the struct
  seed_type : ℤ       -- int32 discriminator
  hash : Fin 32 → ℕ   -- ContentHash.bytes
  atom_type : List ℕ  -- bytes of the std::string

/-- write_int64_be from bulk_ingestion.cpp (value already a uint64). -/
def write_int64_be (val : ℕ) : List ℕ :=
  [(val >>> 56) &&& 0xFF, (val >>> 48) &&& 0xFF, (val >>> 40) &&& 0xFF,
   (val >>> 32) &&& 0xFF, (val >>> 24) &&& 0xFF, (val >>> 16) &&& 0xFF,
   (val >>> 8) &&& 0xFF, val &&& 0xFF]

/-- write_int32_be from bulk_ingestion.cpp: the int32 is reinterpreted
as a uint32 (two's complement) and written big-endian. -/
def write_int32_be (val : ℤ) : List ℕ :=
  let uval := (val % (2 ^ 32 : ℤ)).toNat
  [(uval >>> 24) &&& 0xFF, (uval >>> 16) &&& 0xFF, (uval >>> 8) &&& 0xFF,
   uval &&& 0xFF]

/-- write_atom_row from bulk_ingestion.cpp: the COPY-binary bytes of one
atom row, in the exact append order of the C code.  `wkt` is the byte
string produced by point_to_wkt(atom.x, atom.y, atom.z, atom.m). -/
def write_atom_row (atom : AtomData) (wkt : List ℕ) : List ℕ :=
  [0, 8]                                                   -- field count
  ++ write_int32_be 8 ++ write_int64_be atom.hilbert_high  -- field 1
  ++ write_int32_be 8 ++ write_int64_be atom.hilbert_low   -- field 2
  ++ write_int32_be (wkt.length : ℤ) ++ wkt                -- field 3: WKT text
  ++ write_int32_be 1 ++ [if atom.is_constant then 1 else 0]  -- field 4
  ++ (if atom.is_constant
      then write_int32_be 8 ++ write_int64_be atom.seed_value
      else write_int32_be (-1))                            -- field 5
  ++ (if atom.is_constant
      then write_int32_be 4 ++ write_int32_be atom.seed_type
      else write_int32_be (-1))                            -- field 6
  ++ write_int32_be 32 ++ List.ofFn atom.hash              -- field 7
  ++ write_int32_be (atom.atom_type.length : ℤ) ++ atom.atom_type  -- field 8

/-- Big-endian byte-list to ℕ (conforming COPY-binary reader helper). -/
def beToNat (bytes : List ℕ) : ℕ := bytes.foldl (fun a b => a * 256 + b) 0

/-- Read exactly n bytes from the front of a stream. -/
def readN (n : ℕ) (bs : List ℕ) : Option (List ℕ × List ℕ) :=
  if n ≤ bs.length then some (bs.take n, bs.drop n) else none

/-- Read one COPY-binary field: a 4-byte big-endian length (−1, i.e.
0xFFFFFFFF, denotes SQL NULL) followed by that many payload bytes. -/
def readField (bs : List ℕ) : Option (Option (List ℕ) × List ℕ) :=
  match readN 4 bs with
  | none => none
  | some (lenB, rest) =>
      if beToNat lenB = 0xFFFFFFFF then some (none, rest)
      else
        match readN (beToNat lenB) rest with
        | none => none
        | some (payload, rest') => some (some payload, rest')

/-- Read `n` COPY-binary fields in sequence. -/
def readFields : ℕ → List ℕ → Option (List (Option (List ℕ)) × List ℕ)
  | 0, bs => some ([], bs)
  | n + 1, bs =>
      match readField bs with
      | none => none
      | some (f, rest) =>
          match readFields n rest with
          | none => none
          | some (fs, rest') => some (f :: fs, rest')

/-- Decode one complete COPY-binary row: 2-byte big-endian field count,
then that many fields, consuming the whole input. -/
def readRow (bs : List ℕ) : Option (List (Option (List ℕ))) :=
  match readN 2 bs with
  | none => none
  | some (cntB, rest) =>
      match readFields (beToNat cntB) rest with
      | none => none
      | some (fs, rest') => if rest'.isEmpty then some fs else none

/- ============  bulk_ingestion.cpp : batching and sparsity  ============ -/

/-- The batch accumulation loop shared by hart_seed_unicode and
hart_ingest_safetensor: push each record, and whenever the batch size
reaches COPY_BATCH_SIZE flush it (bulk_insert_atoms) and clear it.
Returns (flushed batches, final unflushed batch). -/
def ingestLoop {α : Type} : List α → List α → List (List α) →
    List (List α) × List α
  | [], batch, flushed => (flushed, batch)
  | x :: rest, batch, flushed =>
      let batch' := batch ++ [x]
      if COPY_BATCH_SIZE ≤ batch'.length then
        ingestLoop rest [] (flushed ++ [batch'])
      else
        ingestLoop rest batch' flushed

/-- Full run of the batching loop including the final
`if (!batch.empty()) bulk_insert_atoms(...)` flush: the list of batches
handed to bulk_insert_atoms, in order. -/
def runBatches {α : Type} (records : List α) : List (List α) :=
  let (flushed, last) := ingestLoop records [] []
  if last.isEmpty then flushed else flushed ++ [last]

/-- The codepoints hart_seed_unicode iterates for an inclusive range:
start..end with the surrogate block 0xD800..0xDFFF skipped. -/
def unicodeRecordSeeds (start_codepoint end_codepoint : ℕ) : List ℕ :=
  (List.range' start_codepoint (end_codepoint + 1 - start_codepoint)).filter
    (fun cp => !decide (0xD800 ≤ cp ∧ cp ≤ 0xDFFF))

/-- Batches flushed by hart_seed_unicode; `mk` stands for the per-record
work (projection, Hilbert key, digest), which does not influence
batching. -/
def hart_seed_unicode_batches {α : Type} (mk : ℕ → α)
    (start_codepoint end_codepoint : ℕ) : List (List α) :=
  runBatches ((unicodeRecordSeeds start_codepoint end_codepoint).map mk)

/-- One tensor element as seen by the hart_ingest_safetensor inner loop:
its F32 value (`val`, an exact rational) and its 32-bit pattern `bits`
(the memcpy bit-cast of the float, carried as data since IEEE-754
encoding itself is not modelled). -/
structure TensorElem where
  val : ℚ
  bits : ℕ

/-- The subsequence of elements that hart_ingest_safetensor turns into
batch records: an element is dropped when |val| < threshold (sparsity
skip) or when its bit pattern was already seen (float_atom_ids dedup);
otherwise its bits are recorded as seen and the record is pushed. -/
def storedNewBits (threshold : ℚ) : List TensorElem → List ℕ → List ℕ
  | [], _ => []
  | e :: rest, seen =>
      if |e.val| < threshold then storedNewBits threshold rest seen
      else if e.bits ∈ seen then storedNewBits threshold rest seen
      else e.bits :: storedNewBits threshold rest (e.bits :: seen)

/-- Batches flushed by hart_ingest_safetensor over the element stream of
all F32/F16 tensors, in order. -/
def hart_ingest_batches {α : Type} (mk : ℕ → α) (threshold : ℚ)
    (elems : List TensorElem) : List (List α) :=
  runBatches ((storedNewBits threshold elems []).map mk)

/-- The result counters of hart_ingest_safetensor over the element
stream: (total_values, stored_values, skipped_values).  Each element
increments total_values; if |val| < threshold it increments
skipped_values and is skipped, otherwise it increments stored_values
(the dedup check comes after the increment and does not affect the
counters). -/
def sparsityCounts (threshold : ℚ) (elems : List TensorElem) : ℕ × ℕ × ℕ :=
  elems.foldl
    (fun acc e =>
      if |e.val| < threshold then (acc.1 + 1, acc.2.1, acc.2.2 + 1)
      else (acc.1 + 1, acc.2.1 + 1, acc.2.2))
    (0, 0, 0)

/-- result->sparsity_percent as computed at bulk_ingestion.cpp:741. -/
def sparsity_percent (threshold : ℚ) (elems : List TensorElem) : ℚ :=
  let c := sparsityCounts threshold elems
  if c.1 > 0 then 100 * (c.2.2 : ℚ) / (c.1 : ℚ) else 0

/- ====================  Theorems: C1, C9  ==================== -/

lemma sphere_identity (R a b c : ℝ) :
    R * Real.sin a * Real.sin b * Real.cos c * (R * Real.sin a * Real.sin b * Real.cos c) +
      R * Real.sin a * Real.sin b * Real.sin c * (R * Real.sin a * Real.sin b * Real.sin c) +
      R * Real.sin a * Real.cos b * (R * Real.sin a * Real.cos b) +
      R * Real.cos a * (R * Real.cos a) = R * R := by
  have h1 := Real.sin_sq_add_cos_sq a
  have h2 := Real.sin_sq_add_cos_sq b
  have h3 := Real.sin_sq_add_cos_sq c
  linear_combination (R ^ 2 * Real.sin a ^ 2 * Real.sin b ^ 2) * h3 +
    (R ^ 2 * Real.sin a ^ 2) * h2 + R ^ 2 * h1

lemma finishPoint_on_sphere (psi theta phi tol : ℝ) (htol : 0 < tol) :
    verify_on_sphere (finishPoint psi theta phi) tol := by
  unfold verify_on_sphere finishPoint
  dsimp only
  rw [sphere_identity]
  simpa using htol

/-- C1: every seed — Codepoint, SignedInteger64, FloatBits64, or any
other discriminator value — is projected by compute_coords_from_seed to
a point satisfying the unit-sphere constraint within 10⁻¹⁰
(verify_on_sphere holds).  In exact double-as-real arithmetic the sum of
squares is exactly 1 for every branch, including the invalid-type
fallback (0,0,0,1). -/
theorem c1_seed_points_on_sphere (seed : AtomSeed) :
    verify_on_sphere (compute_coords_from_seed seed) (1 / 10000000000) := by
  cases seed with
  | unicode cp =>
      simp only [compute_coords_from_seed]
      exact finishPoint_on_sphere _ _ _ _ (by norm_num)
  | integer val =>
      simp only [compute_coords_from_seed]
      exact finishPoint_on_sphere _ _ _ _ (by norm_num)
  | floatBits bits =>
      simp only [compute_coords_from_seed]
      exact finishPoint_on_sphere _ _ _ _ (by norm_num)
  | other tag raw =>
      simp only [compute_coords_from_seed, verify_on_sphere, HYPERSPHERE_RADIUS]
      norm_num

lemma cos_lt_one_of_clamped (u : ℝ) (h0 : 0.001 ≤ u) (h1 : u ≤ M_PI - 0.001) :
    Real.cos u < 1 := by
  by_contra hcon
  push_neg at hcon
  have hcos : Real.cos u = 1 := le_antisymm (Real.cos_le_one u) hcon
  rw [Real.cos_eq_one_iff] at hcos
  obtain ⟨n, hn⟩ := hcos
  have hpi3 := Real.pi_gt_three
  have hMPI : M_PI - 0.001 < 2 * Real.pi := by unfold M_PI; nlinarith
  have hcase : (n : ℝ) ≤ 0 ∨ 1 ≤ (n : ℝ) := by
    rcases le_or_lt n 0 with h | h
    · exact Or.inl (by exact_mod_cast h)
    · exact Or.inr (by exact_mod_cast h)
  rcases hcase with h | h
  · nlinarith [Real.pi_pos]
  · nlinarith [Real.pi_pos]

lemma finishPoint_m_lt_one (psi theta phi : ℝ) :
    (finishPoint psi theta phi).m < 1 := by
  have key : ∀ u : ℝ, 0.001 ≤ u →
      HYPERSPHERE_RADIUS *
        Real.cos (if u > M_PI - 0.001 then M_PI - 0.001 else u) < 1 := by
    intro u hu
    have hb1 : 0.001 ≤ (if u > M_PI - 0.001 then M_PI - 0.001 else u) := by
      split_ifs with h
      · unfold M_PI; norm_num
      · exact hu
    have hb2 : (if u > M_PI - 0.001 then M_PI - 0.001 else u) ≤ M_PI - 0.001 := by
      split_ifs with h
      · exact le_refl _
      · exact not_lt.mp h
    have hc := cos_lt_one_of_clamped _ hb1 hb2
    have hR : HYPERSPHERE_RADIUS = 1 := by unfold HYPERSPHERE_RADIUS; norm_num
    rw [hR, one_mul]
    exact hc
  unfold finishPoint
  dsimp only
  apply key
  split_ifs with h
  · norm_num
  · exact not_lt.mp h

/-- C9: compute_coords_from_seed takes its failure branch only on an
unrecognised seed-type discriminator, where it returns exactly the point
(0,0,0,1); on every recognised discriminator the result has m < 1, so
the fallback point is never produced there. -/
theorem c9_fallback_point (s : AtomSeed) :
    (isUnrecognizedSeed s = true →
      compute_coords_from_seed s = ⟨0, 0, 0, 1⟩) ∧
    (isUnrecognizedSeed s = false → (compute_coords_from_seed s).m < 1) := by
  cases s with
  | unicode cp =>
      refine ⟨fun h => by simp [isUnrecognizedSeed] at h, fun _ => ?_⟩
      simp only [compute_coords_from_seed]
      exact finishPoint_m_lt_one _ _ _
  | integer val =>
      refine ⟨fun h => by simp [isUnrecognizedSeed] at h, fun _ => ?_⟩
      simp only [compute_coords_from_seed]
      exact finishPoint_m_lt_one _ _ _
  | floatBits bits =>
      refine ⟨fun h => by simp [isUnrecognizedSeed] at h, fun _ => ?_⟩
      simp only [compute_coords_from_seed]
      exact finishPoint_m_lt_one _ _ _
  | other tag raw =>
      refine ⟨fun _ => ?_, fun h => by simp [isUnrecognizedSeed] at h⟩
      simp only [compute_coords_from_seed, Point4D.mk.injEq, HYPERSPHERE_RADIUS]
      norm_num

/-- Witness for C9 at concrete seeds: the SEED_COMPOSITION
discriminator (3) yields the fallback point, and codepoint 65 does not. -/
theorem c9_fallback_point_witness :
    compute_coords_from_seed (.other 3 0) = ⟨0, 0, 0, 1⟩ ∧
    (compute_coords_from_seed (.unicode 65)).m < 1 :=
  ⟨(c9_fallback_point (.other 3 0)).1 rfl,
   (c9_fallback_point (.unicode 65)).2 rfl⟩

/- ====================  Theorems: C4  ==================== -/

/-- C4 counterexample: at a = (high 1, low 5), b = (high 0, low 5) the
claim predicts hilbert_distance a b = |1 − 0| = 1, but hilbert.c's
hilbert_distance compares only the low halves and returns 0 — on an
input whose high halves differ. -/
theorem c4_counterexample :
    hilbert_distance ⟨1, 5⟩ ⟨0, 5⟩ = 0 ∧ hilbert_distance ⟨1, 5⟩ ⟨0, 5⟩ ≠ 1 := by
  decide

/-- C4 amended: hilbert.c's hilbert_distance returns the unsigned
absolute difference of the LOW halves for all inputs, ignoring the high
halves entirely; it is hart_hilbert_distance (hilbert_curve.cpp) that
returns the absolute difference of the high halves, falling back to the
low halves exactly when the high halves are equal. -/
theorem c4_distance_uses_low_halves (a b : HilbertIndex) :
    hilbert_distance a b = ((a.low : ℤ) - (b.low : ℤ)).natAbs ∧
    hart_hilbert_distance a b =
      (if a.high = b.high then ((a.low : ℤ) - (b.low : ℤ)).natAbs
       else ((a.high : ℤ) - (b.high : ℤ)).natAbs) := by
  constructor
  · unfold hilbert_distance
    split_ifs with h <;> omega
  · unfold hart_hilbert_distance
    dsimp only
    split_ifs <;> omega

/- ====================  Theorems: C2  ==================== -/

/-- C2 counterexample: a Codepoint seed and a FloatBits seed whose
32-bit seed values are both 65 feed byte-identical streams to BLAKE3 on
the two ingestion paths (compute_seed_hash hashes only the 4-byte
little-endian value, never the seed type), so the two digests are equal,
not different as the claim states. -/
theorem c2_counterexample :
    unicode_path_hash_input 65 = float_path_hash_input 65 := rfl

lemma and255_eq_mod (x : ℕ) : x &&& 255 = x % 256 := by
  have h := Nat.and_pow_two_sub_one_eq_mod x 8
  norm_num at h
  exact h

/-- C2 amended: the stored digest is BLAKE3 of the 4 little-endian bytes
of the 32-bit seed value alone; it is a pure function of those value
bits — equal 32-bit values give byte-identical hasher input (hence equal
digests) even across different seed types, and values differing in their
low 32 bits give different hasher input (hence digests differing up to
BLAKE3 collisions).  The seed type does not enter the digest, so the
Codepoint and FloatBits paths hash identically for equal seed values. -/
theorem c2_digest_function_of_value_bits (a b : ℕ) :
    (compute_seed_hash_input a = compute_seed_hash_input b ↔
      a % 2 ^ 32 = b % 2 ^ 32) ∧
    unicode_path_hash_input a = float_path_hash_input a := by
  refine ⟨?_, rfl⟩
  unfold compute_seed_hash_input le32Bytes
  simp only [and255_eq_mod, Nat.shiftRight_eq_div_pow, List.cons.injEq, and_true]
  norm_num
  constructor
  · intro h
    obtain ⟨h0, h1, h2, h3⟩ := h
    omega
  · intro h
    refine ⟨by omega, by omega, by omega, by omega⟩

/- ====================  Theorems: C7  ==================== -/

/-- Element stream of the boundary-scenario container: two F32 tensors,
each of shape [4] with values {0.1, 0.001, −0.2, 0.0}.  The bits fields
carry the four distinct IEEE-754 single bit patterns; only the values
influence the counters. -/
def c7Elems : List TensorElem :=
  [⟨0.1, 0x3DCCCCCD⟩, ⟨0.001, 0x3A83126F⟩, ⟨-0.2, 0xBE4CCCCD⟩, ⟨0, 0⟩,
   ⟨0.1, 0x3DCCCCCD⟩, ⟨0.001, 0x3A83126F⟩, ⟨-0.2, 0xBE4CCCCD⟩, ⟨0, 0⟩]

lemma c7_counts_eval : sparsityCounts 0.01 c7Elems = (8, 4, 4) := by
  have h1 : ¬ (|(0.1 : ℚ)| < 0.01) := by rw [abs_of_pos] <;> norm_num
  have h2 : |(0.001 : ℚ)| < 0.01 := by rw [abs_of_pos] <;> norm_num
  have h3 : ¬ (|(0.2 : ℚ)| < 0.01) := by rw [abs_of_pos] <;> norm_num
  have h4 : (0 : ℚ) < 0.01 := by norm_num
  simp [c7Elems, sparsityCounts, List.foldl, h1, h2, h3, h4]

/-- C7 counterexample: on the claimed two-tensor container at threshold
0.01 the code skips |0.001| AND |0.0| in each tensor (both are below the
threshold), giving stored_values = 4 ≠ 3, skipped_values = 4 ≠ 1 and
sparsity_percent = 50 ≠ 25. -/
theorem c7_counterexample :
    (sparsityCounts 0.01 c7Elems).2.1 = 4 ∧ (4 : ℕ) ≠ 3 ∧
    (sparsityCounts 0.01 c7Elems).2.2 = 4 ∧ (4 : ℕ) ≠ 1 ∧
    sparsity_percent 0.01 c7Elems = 50 ∧ (50 : ℚ) ≠ 25 := by
  refine ⟨by rw [c7_counts_eval], by norm_num, by rw [c7_counts_eval],
    by norm_num, ?_, by norm_num⟩
  unfold sparsity_percent
  rw [c7_counts_eval]
  norm_num

lemma sparsityCounts_aux (threshold : ℚ) (elems : List TensorElem) :
    ∀ t s k : ℕ,
      elems.foldl
        (fun acc e =>
          if |e.val| < threshold then (acc.1 + 1, acc.2.1, acc.2.2 + 1)
          else (acc.1 + 1, acc.2.1 + 1, acc.2.2)) (t, s, k) =
      (t + elems.length,
       s + elems.countP (fun e => !decide (|e.val| < threshold)),
       k + elems.countP (fun e => decide (|e.val| < threshold))) := by
  induction elems with
  | nil => intro t s k; simp
  | cons e rest ih =>
      intro t s k
      simp only [List.foldl_cons, List.countP_cons, List.length_cons]
      by_cases h : |e.val| < threshold
      · rw [if_pos h, ih]
        simp [h, Prod.ext_iff]
        omega
      · rw [if_neg h, ih]
        simp [h, Prod.ext_iff]
        omega

/-- C7 amended: an element is skipped exactly when its absolute value is
below the threshold, total/stored/skipped count exactly the elements in
each class, and on the claimed two-tensor container at threshold 0.01
the result record holds total_values = 8, stored_values = 4,
skipped_values = 4, sparsity_percent = 100·4/8 = 50. -/
theorem c7_sparsity_counts :
    (∀ (threshold : ℚ) (elems : List TensorElem),
      sparsityCounts threshold elems =
        (elems.length,
         elems.countP (fun e => !decide (|e.val| < threshold)),
         elems.countP (fun e => decide (|e.val| < threshold)))) ∧
    sparsityCounts 0.01 c7Elems = (8, 4, 4) ∧
    sparsity_percent 0.01 c7Elems = 50 := by
  refine ⟨fun threshold elems => ?_, c7_counts_eval, ?_⟩
  · unfold sparsityCounts
    rw [sparsityCounts_aux]
    simp
  · unfold sparsity_percent
    rw [c7_counts_eval]
    norm_num

/- ====================  Theorems: C8  ==================== -/

lemma floor_round_close (t : ℚ) (h : 0 ≤ t) :
    |((⌊t + 0.5⌋.toNat : ℕ) : ℚ) - t| ≤ 0.5 := by
  have hfl : (0 : ℤ) ≤ ⌊t + 0.5⌋ := Int.floor_nonneg.mpr (by linarith)
  have hcast : ((⌊t + 0.5⌋.toNat : ℕ) : ℚ) = ((⌊t + 0.5⌋ : ℤ) : ℚ) := by
    exact_mod_cast congrArg (fun z : ℤ => (z : ℚ)) (Int.toNat_of_nonneg hfl)
  rw [hcast, abs_le]
  have hle := Int.floor_le (t + 0.5)
  have hgt := Int.lt_floor_add_one (t + 0.5)
  constructor <;> push_cast at hle hgt ⊢ <;> linarith

lemma quantize_eval_in_range (v : ℚ) (h0 : -1 ≤ v) (h1 : v ≤ 1) :
    quantize_coord v (-1) 1 = (⌊(v + 1) / 2 * 65535 + 0.5⌋).toNat := by
  unfold quantize_coord
  dsimp only
  have hA : ¬ ((v - (-1)) / (1 - (-1)) < 0) := by
    rw [not_lt]
    exact div_nonneg (by linarith) (by norm_num)
  have hB : ¬ ((v - (-1)) / (1 - (-1)) > 1) := by
    rw [gt_iff_lt, not_lt, div_le_one (by norm_num : (0:ℚ) < 1 - (-1))]
    linarith
  rw [if_neg hA, if_neg hB]
  norm_num [HILBERT_BITS_PER_DIM, Nat.shiftLeft_eq]

lemma c8_close (v : ℚ) (h0 : -1 ≤ v) (h1 : v ≤ 1) :
    |dequantize_coord (quantize_coord v (-1) 1) (-1) 1 - v| ≤ 2 / 65535 := by
  rw [quantize_eval_in_range v h0 h1]
  have hc := floor_round_close ((v + 1) / 2 * 65535)
    (mul_nonneg (div_nonneg (by linarith) (by norm_num)) (by norm_num))
  unfold dequantize_coord
  dsimp only
  norm_num [HILBERT_BITS_PER_DIM, Nat.shiftLeft_eq] at hc ⊢
  rw [abs_le] at hc ⊢
  constructor <;> linarith [hc.1, hc.2]

lemma quantize_clamp_eq (v : ℚ) :
    quantize_coord v (-1) 1 = quantize_coord (max (-1) (min 1 v)) (-1) 1 := by
  rcases lt_or_le v (-1) with hv | hv
  · have hm : max (-1) (min 1 v) = -1 := by
      rw [min_eq_right (by linarith : v ≤ 1)]
      exact max_eq_left (by linarith)
    rw [hm]
    unfold quantize_coord
    dsimp only
    have hA : (v - (-1)) / (1 - (-1)) < 0 :=
      div_neg_of_neg_of_pos (by linarith) (by norm_num)
    rw [if_pos hA]
    norm_num
  · rcases le_or_lt v 1 with hv1 | hv1
    · have hm : max (-1) (min 1 v) = v := by
        rw [min_eq_right hv1]
        exact max_eq_right hv
      rw [hm]
    · have hm : max (-1) (min 1 v) = 1 := by
        rw [min_eq_left hv1.le]
        norm_num
      rw [hm]
      unfold quantize_coord
      dsimp only
      have hA : ¬ ((v - (-1)) / (1 - (-1)) < 0) := by
        rw [not_lt]
        exact div_nonneg (by linarith) (by norm_num)
      have hB : (v - (-1)) / (1 - (-1)) > 1 := by
        rw [gt_iff_lt, lt_div_iff₀ (by norm_num : (0:ℚ) < 1 - (-1))]
        linarith
      rw [if_neg hA, if_pos hB]
      norm_num

/-- C8: for every double v in [−1,1] the quantize/dequantize round trip
recovers v within 2/(2¹⁶−1) per axis, and for any v the quantizer first
clamps (the normalized value of) v into range — quantize_coord v equals
quantize_coord of v clamped into [−1,1]. -/
theorem c8_quantize_roundtrip_error (v : ℚ) :
    (-1 ≤ v → v ≤ 1 →
      |dequantize_coord (quantize_coord v (-1) 1) (-1) 1 - v| ≤ 2 / (2 ^ 16 - 1)) ∧
    quantize_coord v (-1) 1 = quantize_coord (max (-1) (min 1 v)) (-1) 1 := by
  refine ⟨fun h0 h1 => ?_, quantize_clamp_eq v⟩
  have h := c8_close v h0 h1
  norm_num at h ⊢
  exact h

/-- Witness for C8: the round-trip bound instantiated at v = 0 and the
clamp property instantiated at the out-of-range input v = 2. -/
theorem c8_quantize_roundtrip_error_witness :
    ((-1 : ℚ) ≤ 0 ∧ (0 : ℚ) ≤ 1 ∧
      |dequantize_coord (quantize_coord 0 (-1) 1) (-1) 1 - 0| ≤ 2 / (2 ^ 16 - 1)) ∧
    quantize_coord 2 (-1) 1 = quantize_coord (max (-1) (min 1 2)) (-1) 1 :=
  ⟨⟨by norm_num, by norm_num,
    (c8_quantize_roundtrip_error 0).1 (by norm_num) (by norm_num)⟩,
   (c8_quantize_roundtrip_error 2).2⟩

/- ====================  Theorems: C5  ==================== -/

/-- Concrete atom for the C5 counterexample (is_constant row, as both
ingestion paths produce). -/
def c5Atom : AtomData :=
  { hilbert_high := 1, hilbert_low := 2, is_constant := true,
    seed_value := 65, seed_type := 0, hash := fun _ => 0,
    atom_type := [99, 111, 100, 101] }

/-- C5 counterexample: the first two bytes of every emitted row are the
big-endian field count 0x0008 — each row has EIGHT fields, not the six
the claim describes (and field 1 is hilbert_high, not seed_value). -/
theorem c5_counterexample :
    (write_atom_row c5Atom [80]).take 2 = [0, 8] ∧
    ([0, 8] : List ℕ) ≠ [0, 6] := by decide

/-- The wire bytes of one field as written by write_atom_row: a 4-byte
big-endian length then the payload, or the −1 NULL marker. -/
def fieldBytes : Option (List ℕ) → List ℕ
  | none => write_int32_be (-1)
  | some payload => write_int32_be (payload.length : ℤ) ++ payload

lemma readN_exact (n : ℕ) (xs ys : List ℕ) (h : xs.length = n) :
    readN n (xs ++ ys) = some (xs, ys) := by
  subst h
  unfold readN
  rw [if_pos (by simp), List.take_left, List.drop_left]

lemma beToNat_write_int32_be (n : ℕ) (h : n < 2 ^ 32) :
    beToNat (write_int32_be (n : ℤ)) = n := by
  unfold write_int32_be beToNat
  have hmod : ((n : ℤ) % 2 ^ 32).toNat = n := by
    rw [Int.emod_eq_of_lt (by positivity) (by exact_mod_cast h)]
    exact Int.toNat_natCast n
  rw [hmod]
  simp only [List.foldl, and255_eq_mod, Nat.shiftRight_eq_div_pow]
  norm_num
  omega

lemma readField_encoded (k : ℤ) (n : ℕ) (payload rest : List ℕ)
    (hk : beToNat (write_int32_be k) = n) (hne : n ≠ 0xFFFFFFFF)
    (hlen : payload.length = n) :
    readField (write_int32_be k ++ (payload ++ rest)) = some (some payload, rest) := by
  unfold readField
  rw [readN_exact 4 (write_int32_be k) _ rfl]
  dsimp only
  rw [hk, if_neg hne, ← hlen, readN_exact payload.length payload rest rfl]

lemma readField_null (rest : List ℕ) :
    readField (write_int32_be (-1) ++ rest) = some (none, rest) := by
  unfold readField
  rw [readN_exact 4 (write_int32_be (-1)) _ rfl]
  dsimp only
  rw [if_pos (by decide : beToNat (write_int32_be (-1)) = 0xFFFFFFFF)]

lemma readField_fieldBytes (f : Option (List ℕ)) (rest : List ℕ)
    (h : ∀ p, f = some p → p.length < 2 ^ 31) :
    readField (fieldBytes f ++ rest) = some (f, rest) := by
  cases f with
  | none => exact readField_null rest
  | some payload =>
      have hp := h payload rfl
      rw [fieldBytes, List.append_assoc]
      exact readField_encoded _ payload.length payload rest
        (beToNat_write_int32_be _ (by omega)) (by omega) rfl

lemma readFields_encoded (fields : List (Option (List ℕ))) (rest : List ℕ)
    (h : ∀ f ∈ fields, ∀ p, f = some p → p.length < 2 ^ 31) :
    readFields fields.length ((fields.map fieldBytes).flatten ++ rest) =
      some (fields, rest) := by
  induction fields generalizing rest with
  | nil => rfl
  | cons f fs ih =>
      simp only [List.map_cons, List.flatten_cons, List.length_cons,
        List.append_assoc]
      unfold readFields
      rw [readField_fieldBytes f _ (h f (by simp))]
      dsimp only
      rw [ih rest (fun g hg => h g (by simp [hg]))]

/-- The eight fields of a row, in the order write_atom_row emits them. -/
def atomRowFields (atom : AtomData) (wkt : List ℕ) : List (Option (List ℕ)) :=
  [some (write_int64_be atom.hilbert_high),
   some (write_int64_be atom.hilbert_low),
   some wkt,
   some [if atom.is_constant then 1 else 0],
   if atom.is_constant then some (write_int64_be atom.seed_value) else none,
   if atom.is_constant then some (write_int32_be atom.seed_type) else none,
   some (List.ofFn atom.hash),
   some atom.atom_type]

lemma write_atom_row_eq_fields (atom : AtomData) (wkt : List ℕ) :
    write_atom_row atom wkt =
      [0, 8] ++ (((atomRowFields atom wkt).map fieldBytes).flatten ++ []) := by
  unfold write_atom_row atomRowFields
  cases hc : atom.is_constant <;>
    simp [fieldBytes, write_int64_be, write_int32_be, List.length_ofFn,
      List.append_assoc, Nat.cast_ofNat]

/-- C5 amended: a conforming COPY-binary row decoder applied to the
bytes of write_atom_row recovers exactly EIGHT fields, in this order:
hilbert_high (8-byte big-endian i64), hilbert_low (8-byte big-endian
i64), geom as WKT TEXT bytes (not 41-byte EWKB), is_constant (1 byte),
seed_value (8-byte big-endian i64, NULL when not constant), seed_type
(4-byte big-endian i32, NULL when not constant), content_hash (32 raw
bytes), atom_type (text bytes).  (The entry points moreover flush rows
through the text-format COPY of bulk_insert_atoms, not this binary
writer.) -/
theorem c5_row_layout_eight_fields (atom : AtomData) (wkt : List ℕ)
    (hw : wkt.length < 2 ^ 31) (ht : atom.atom_type.length < 2 ^ 31) :
    readRow (write_atom_row atom wkt) = some (atomRowFields atom wkt) := by
  rw [write_atom_row_eq_fields]
  unfold readRow
  rw [readN_exact 2 [0, 8] _ rfl]
  dsimp only
  have hcount : beToNat [0, 8] = 8 := rfl
  have hlen : (atomRowFields atom wkt).length = 8 := by
    unfold atomRowFields; simp
  rw [hcount, ← hlen]
  rw [readFields_encoded]
  · rfl
  · intro f hf p hp
    subst hp
    have hlen8 : ∀ v : ℕ, (write_int64_be v).length = 8 := fun v => rfl
    have hlen4 : ∀ v : ℤ, (write_int32_be v).length = 4 := fun v => rfl
    unfold atomRowFields at hf
    cases hc : atom.is_constant
    · rw [hc] at hf
      simp only [Bool.false_eq_true, if_false, List.mem_cons,
        List.not_mem_nil, or_false, false_or, Option.some.injEq,
        reduceCtorEq] at hf
      rcases hf with h | h | h | h | h | h <;> subst h <;>
        (try simp only [hlen8, hlen4, List.length_ofFn, List.length_cons,
          List.length_nil]) <;> omega
    · rw [hc] at hf
      simp only [if_true, List.mem_cons, List.not_mem_nil, or_false,
        false_or, Option.some.injEq, reduceCtorEq] at hf
      rcases hf with h | h | h | h | h | h | h | h <;> subst h <;>
        (try simp only [hlen8, hlen4, List.length_ofFn, List.length_cons,
          List.length_nil]) <;> omega

/-- Witness for C5 at a concrete constant atom and WKT byte string. -/
theorem c5_row_layout_eight_fields_witness :
    ([80] : List ℕ).length < 2 ^ 31 ∧ (c5Atom.atom_type.length < 2 ^ 31) ∧
    readRow (write_atom_row c5Atom [80]) = some (atomRowFields c5Atom [80]) :=
  ⟨by norm_num, by norm_num [c5Atom],
   c5_row_layout_eight_fields c5Atom [80] (by norm_num) (by norm_num [c5Atom])⟩

/- ====================  Theorems: C6  ==================== -/

/-- Reference chunking: split a list into maximal full chunks of size n
plus the remainder (possibly empty). -/
def chunksSplit (n : ℕ) (l : List α) : List (List α) × List α :=
  if _h : l.length < n ∨ n = 0 then ([], l)
  else
    let rest := chunksSplit n (l.drop n)
    (l.take n :: rest.1, rest.2)
termination_by l.length
decreasing_by
  simp only [List.length_drop]
  omega

lemma ingestLoop_eq {α : Type} (xs : List α) : ∀ (batch : List α)
    (acc : List (List α)), batch.length < COPY_BATCH_SIZE →
    ingestLoop xs batch acc =
      (acc ++ (chunksSplit COPY_BATCH_SIZE (batch ++ xs)).1,
       (chunksSplit COPY_BATCH_SIZE (batch ++ xs)).2) := by
  induction xs with
  | nil =>
      intro batch acc h
      rw [chunksSplit, dif_pos (Or.inl (by simpa using h))]
      simp [ingestLoop]
  | cons x rest ih =>
      intro batch acc h
      by_cases hfull : COPY_BATCH_SIZE ≤ (batch ++ [x]).length
      · have hlen : (batch ++ [x]).length = COPY_BATCH_SIZE := by
          simp only [List.length_append, List.length_cons, List.length_nil] at hfull ⊢
          omega
        simp only [ingestLoop]
        rw [if_pos hfull]
        rw [ih [] (acc ++ [batch ++ [x]]) (by simp [COPY_BATCH_SIZE])]
        have hcond : ¬((batch ++ x :: rest).length < COPY_BATCH_SIZE ∨
            COPY_BATCH_SIZE = 0) := by
          simp only [List.length_append, List.length_cons, List.length_nil] at hlen ⊢
          push_neg
          omega
        have hsplit : chunksSplit COPY_BATCH_SIZE (batch ++ x :: rest) =
            ((batch ++ [x]) :: (chunksSplit COPY_BATCH_SIZE rest).1,
             (chunksSplit COPY_BATCH_SIZE rest).2) := by
          rw [chunksSplit, dif_neg hcond]
          have hassoc : batch ++ x :: rest = (batch ++ [x]) ++ rest := by simp
          rw [hassoc, ← hlen, List.take_left, List.drop_left]
        rw [hsplit]
        simp
      · simp only [ingestLoop]
        rw [if_neg hfull]
        rw [ih (batch ++ [x]) acc (by
          simp only [List.length_append, List.length_cons, List.length_nil] at hfull ⊢
          omega)]
        have hassoc : (batch ++ [x]) ++ rest = batch ++ x :: rest := by simp
        rw [hassoc]

lemma runBatches_eq {α : Type} (xs : List α) :
    runBatches xs =
      (chunksSplit COPY_BATCH_SIZE xs).1 ++
        (if (chunksSplit COPY_BATCH_SIZE xs).2.isEmpty then []
         else [(chunksSplit COPY_BATCH_SIZE xs).2]) := by
  unfold runBatches
  rw [ingestLoop_eq xs [] [] (by simp [COPY_BATCH_SIZE])]
  simp only [List.nil_append]
  split_ifs <;> simp

lemma chunksSplit_bounded {α : Type} (n : ℕ) (hn : 0 < n) :
    ∀ (k : ℕ) (l : List α), l.length ≤ k →
      (∀ c ∈ (chunksSplit n l).1, c.length = n) ∧
      (chunksSplit n l).2.length < n := by
  intro k
  induction k with
  | zero =>
      intro l hl
      rw [chunksSplit, dif_pos (Or.inl (by omega))]
      exact ⟨by simp, by simpa using (by omega : l.length < n)⟩
  | succ k ih =>
      intro l hl
      by_cases h : l.length < n ∨ n = 0
      · rw [chunksSplit, dif_pos h]
        refine ⟨by simp, ?_⟩
        have hlt : l.length < n := by
          rcases h with h | h
          · exact h
          · omega
        simpa using hlt
      · rw [chunksSplit, dif_neg h]
        dsimp only
        push_neg at h
        obtain ⟨hge, -⟩ := h
        have hdrop : (l.drop n).length ≤ k := by
          simp only [List.length_drop]
          omega
        obtain ⟨ih1, ih2⟩ := ih (l.drop n) hdrop
        refine ⟨?_, ih2⟩
        intro c hc
        rcases List.mem_cons.mp hc with rfl | hc'
        · simp only [List.length_take]
          omega
        · exact ih1 c hc'

lemma runBatches_sizes {α : Type} (xs : List α) :
    ((runBatches xs).all fun b => decide (b.length ≤ COPY_BATCH_SIZE)) = true ∧
    ((runBatches xs).dropLast.all
      fun b => decide (b.length = COPY_BATCH_SIZE)) = true := by
  obtain ⟨h1, h2⟩ := chunksSplit_bounded COPY_BATCH_SIZE
    (by simp [COPY_BATCH_SIZE]) xs.length xs le_rfl
  rw [runBatches_eq]
  constructor
  · rw [List.all_eq_true]
    intro b hb
    rcases List.mem_append.mp hb with hb | hb
    · simpa using le_of_eq (h1 b hb)
    · split_ifs at hb with he
      · simp at hb
      · simp only [List.mem_singleton] at hb
        subst hb
        simpa using le_of_lt h2
  · rw [List.all_eq_true]
    intro b hb
    split_ifs at hb with he
    · simp only [List.append_nil] at hb
      have := h1 b (List.dropLast_sublist _ |>.subset hb)
      simpa using this
    · rw [List.dropLast_concat] at hb
      simpa using h1 b hb

/-- C6 counterexample: seeding the Unicode range [0, 50000] (50001
non-surrogate codepoints) flushes its first batch at 50 000 records, not
500 000 — COPY_BATCH_SIZE is 50 000. -/
theorem c6_counterexample :
    (hart_seed_unicode_batches id 0 50000).head?.map List.length =
      some COPY_BATCH_SIZE ∧ COPY_BATCH_SIZE ≠ 500000 := by
  constructor
  · unfold hart_seed_unicode_batches
    have hseeds : unicodeRecordSeeds 0 50000 = List.range' 0 50001 := by
      unfold unicodeRecordSeeds
      norm_num
      intro a ha
      omega
    rw [hseeds, List.map_id, runBatches_eq]
    have hlen : (List.range' 0 50001).length = 50001 := by
      simp [List.length_range']
    rw [chunksSplit, dif_neg (by rw [hlen]; simp [COPY_BATCH_SIZE])]
    simp only [List.cons_append, List.head?_cons, Option.map_some']
    rw [List.length_take, hlen]
    norm_num [COPY_BATCH_SIZE]
  · decide

/-- C6 amended: both ingestion entry points accumulate records into a
batch and flush exactly when it reaches COPY_BATCH_SIZE = 50 000 records
(not 500 000): every flushed batch has at most 50 000 records, and every
flushed batch except possibly the final partial one has exactly 50 000. -/
theorem c6_batch_flush_at_50000 {α : Type} (mk : ℕ → α)
    (start_codepoint end_codepoint : ℕ) (threshold : ℚ)
    (elems : List TensorElem) :
    ((hart_seed_unicode_batches mk start_codepoint end_codepoint).all
      fun b => decide (b.length ≤ COPY_BATCH_SIZE)) = true ∧
    ((hart_seed_unicode_batches mk start_codepoint end_codepoint).dropLast.all
      fun b => decide (b.length = COPY_BATCH_SIZE)) = true ∧
    ((hart_ingest_batches mk threshold elems).all
      fun b => decide (b.length ≤ COPY_BATCH_SIZE)) = true ∧
    ((hart_ingest_batches mk threshold elems).dropLast.all
      fun b => decide (b.length = COPY_BATCH_SIZE)) = true := by
  obtain ⟨h1, h2⟩ := runBatches_sizes
    ((unicodeRecordSeeds start_codepoint end_codepoint).map mk)
  obtain ⟨h3, h4⟩ := runBatches_sizes ((storedNewBits threshold elems []).map mk)
  exact ⟨h1, h2, h3, h4⟩

/- ====================  Theorems: C3, C10 — 4-bit facts  ==================== -/

lemma gray_roundtrip_4 : ∀ b < 16, gray_to_binary_4 (binary_to_gray_4 b) = b := by
  decide

lemma binary_to_gray_4_lt : ∀ b < 16, binary_to_gray_4 b < 16 := by decide

lemma one_shift_lt_16 : ∀ v < 4, (1 : ℕ) <<< v < 16 := by decide

lemma xor_lt_16 (a b : ℕ) (ha : a < 16) (hb : b < 16) : a ^^^ b < 16 := by
  have h := @Nat.xor_lt_two_pow a b 4 (by norm_num [ha]) (by norm_num [hb])
  norm_num at h
  exact h

lemma update_rotation_flip_lt (s : RotationState) (g : ℕ) (h : s.flip < 16) :
    (update_rotation s g).flip < 16 := by
  unfold update_rotation
  split_ifs with hg
  · exact xor_lt_16 _ _ h (one_shift_lt_16 _ (s.perm 0).isLt)
  · exact h

lemma gatherBits_lt (c : Fin 4 → ℕ) (p : Equiv.Perm (Fin 4)) (bit : ℕ) :
    gatherBits c p bit < 16 := by
  unfold gatherBits
  simp only [List.foldl_cons, List.foldl_nil]
  by_cases h0 : c (p 0) &&& (1 <<< bit) ≠ 0 <;>
    by_cases h1 : c (p 1) &&& (1 <<< bit) ≠ 0 <;>
    by_cases h2 : c (p 2) &&& (1 <<< bit) ≠ 0 <;>
    by_cases h3 : c (p 3) &&& (1 <<< bit) ≠ 0 <;>
    simp [h0, h1, h2, h3] <;> decide

lemma gatherBits_and (c : Fin 4 → ℕ) (p : Equiv.Perm (Fin 4)) (bit : ℕ)
    (d : Fin 4) :
    (gatherBits c p bit &&& (1 <<< d.val) ≠ 0) ↔
      (c (p d) &&& (1 <<< bit) ≠ 0) := by
  unfold gatherBits
  simp only [List.foldl_cons, List.foldl_nil]
  fin_cases d <;>
    (by_cases h0 : c (p 0) &&& (1 <<< bit) ≠ 0 <;>
     by_cases h1 : c (p 1) &&& (1 <<< bit) ≠ 0 <;>
     by_cases h2 : c (p 2) &&& (1 <<< bit) ≠ 0 <;>
     by_cases h3 : c (p 3) &&& (1 <<< bit) ≠ 0 <;>
     simp [h0, h1, h2, h3] <;> decide)

lemma mem_fin4_list (x : Fin 4) : x ∈ ([0, 1, 2, 3] : List (Fin 4)) := by
  fin_cases x <;> decide

lemma scatter_fold_apply (bits : ℕ) (p : Equiv.Perm (Fin 4)) (bit : ℕ) :
    ∀ (L : List (Fin 4)), L.Nodup → ∀ (coords : Fin 4 → ℕ) (j : Fin 4),
      (L.foldl (fun cs d => if bits &&& (1 <<< d.val) ≠ 0
          then Function.update cs (p d) (cs (p d) ||| (1 <<< bit)) else cs)
        coords) j =
      if p.symm j ∈ L ∧ bits &&& (1 <<< (p.symm j).val) ≠ 0
      then coords j ||| (1 <<< bit) else coords j := by
  intro L
  induction L with
  | nil => intro _ coords j; simp
  | cons d rest ih =>
      intro hnd coords j
      simp only [List.foldl_cons]
      rw [ih (List.nodup_cons.mp hnd).2]
      by_cases hd : p.symm j = d
      · have hj : j = p d := by rw [← hd, Equiv.apply_symm_apply]
        have hdrest : p.symm j ∉ rest := hd ▸ (List.nodup_cons.mp hnd).1
        by_cases hb : bits &&& (1 <<< d.val) ≠ 0
        · rw [if_pos hb, if_neg (fun hc => hdrest hc.1),
            if_pos ⟨by simp [hd], by rw [hd]; exact hb⟩, hj,
            Function.update_same]
        · rw [if_neg hb, if_neg (fun hc => hdrest hc.1),
            if_neg (fun hc => hb (by rw [← hd]; exact hc.2))]
      · have hj : j ≠ p d := fun hjeq => hd (by rw [hjeq, Equiv.symm_apply_apply])
        have hc1 : (if bits &&& (1 <<< d.val) ≠ 0
            then Function.update coords (p d) (coords (p d) ||| (1 <<< bit))
            else coords) j = coords j := by
          split_ifs with hb
          · exact Function.update_noteq hj _ _
          · rfl
        simp only [hc1, List.mem_cons, hd, false_or]

lemma scatterBits_apply (bits : ℕ) (p : Equiv.Perm (Fin 4)) (bit : ℕ)
    (coords : Fin 4 → ℕ) (j : Fin 4) :
    scatterBits bits p bit coords j =
      if bits &&& (1 <<< (p.symm j).val) ≠ 0 then coords j ||| (1 <<< bit)
      else coords j := by
  unfold scatterBits
  rw [scatter_fold_apply bits p bit [0, 1, 2, 3] (by decide) coords j]
  have hmem := mem_fin4_list (p.symm j)
  simp [hmem]

/- ============  C3, C10 — encode-loop invariants  ============ -/

lemma encodeLoop_high (c : Fin 4 → ℕ) : ∀ (L : List ℕ), (∀ b ∈ L, b < 16) →
    ∀ (key : HilbertIndex) (s : RotationState),
      ((encodeLoop c L (key, s)).1).high = key.high := by
  intro L
  induction L with
  | nil => intro _ key s; rfl
  | cons bit rest ih =>
      intro hL key s
      have hb : bit < 16 := hL bit (by simp)
      simp only [encodeLoop]
      rw [if_pos (by omega : bit * 4 < 64)]
      exact ih (fun b hb' => hL b (by simp [hb'])) _ _

lemma encodeLoop_low_or (c : Fin 4 → ℕ) : ∀ (L : List ℕ), (∀ b ∈ L, b < 16) →
    ∀ (key : HilbertIndex) (s : RotationState),
      ((encodeLoop c L (key, s)).1).low =
        key.low ||| ((encodeLoop c L (⟨0, 0⟩, s)).1).low := by
  intro L
  induction L with
  | nil => intro _ key s; simp [encodeLoop]
  | cons bit rest ih =>
      intro hL key s
      have hb : bit < 16 := hL bit (by simp)
      have hrest : ∀ b ∈ rest, b < 16 := fun b hb' => hL b (by simp [hb'])
      have h64 : bit * 4 < 64 := by omega
      simp only [encodeLoop]
      rw [if_pos h64, if_pos h64]
      conv_rhs => rw [ih hrest]
      rw [ih hrest]
      simp [Nat.lor_assoc]

lemma encodeLoop_low_lt (c : Fin 4 → ℕ) : ∀ (L : List ℕ) (n : ℕ),
    (∀ b ∈ L, b < n) → n ≤ 16 → ∀ (s : RotationState), s.flip < 16 →
      ((encodeLoop c L (⟨0, 0⟩, s)).1).low < 2 ^ (n * 4) := by
  intro L
  induction L with
  | nil => intro n _ _ s _; simp [encodeLoop]
  | cons bit rest ih =>
      intro n hL hn s hflip
      have hb : bit < n := hL bit (by simp)
      have hrest : ∀ b ∈ rest, b < n := fun b hb' => hL b (by simp [hb'])
      have hg : binary_to_gray_4 (gatherBits c s.perm bit ^^^ s.flip) < 16 :=
        binary_to_gray_4_lt _ (xor_lt_16 _ _ (gatherBits_lt c s.perm bit) hflip)
      simp only [encodeLoop]
      rw [if_pos (by omega : bit * 4 < 64)]
      rw [encodeLoop_low_or c rest (fun b hb' => hrest b hb' |>.trans_le hn) _ _]
      apply Nat.or_lt_two_pow
      · have hpos : 0 < 2 ^ (bit * 4) := Nat.two_pow_pos _
        have hmul : binary_to_gray_4 (gatherBits c s.perm bit ^^^ s.flip) *
            2 ^ (bit * 4) < 2 ^ (n * 4) := by
          calc binary_to_gray_4 (gatherBits c s.perm bit ^^^ s.flip) *
              2 ^ (bit * 4)
              < 16 * 2 ^ (bit * 4) := (Nat.mul_lt_mul_right hpos).mpr hg
            _ = 2 ^ (bit * 4 + 4) := by rw [pow_add]; ring
            _ ≤ 2 ^ (n * 4) := Nat.pow_le_pow_right (by norm_num) (by omega)
        simpa [Nat.shiftLeft_eq] using hmul
      · exact ih n hrest hn _ (update_rotation_flip_lt s _ hflip)

lemma extract_top (g E b : ℕ) (hg : g < 16) (hE : E < 2 ^ (b * 4)) :
    (((g <<< (b * 4)) ||| E) >>> (b * 4)) &&& 0xF = g := by
  have h15 : (0xF : ℕ) = 2 ^ 4 - 1 := rfl
  apply Nat.eq_of_testBit_eq
  intro i
  rw [h15]
  simp only [Nat.testBit_and, Nat.testBit_shiftRight, Nat.testBit_or,
    Nat.testBit_shiftLeft, Nat.testBit_two_pow_sub_one]
  by_cases hi : i < 4
  · have hEbit : E.testBit (b * 4 + i) = false :=
      Nat.testBit_lt_two_pow (lt_of_lt_of_le hE (Nat.pow_le_pow_right
        (by norm_num) (by omega)))
    simp [hi, hEbit, Nat.add_sub_cancel_left]
  · have hglt : g < 2 ^ i :=
      lt_of_lt_of_le (by simpa using hg : g < 2 ^ 4)
        (Nat.pow_le_pow_right (by norm_num) (by omega))
    have hgbit : g.testBit i = false := Nat.testBit_lt_two_pow hglt
    simp [hi, hgbit]

lemma extract_low (g E b b' : ℕ) (hb : b' < b) :
    (((g <<< (b * 4)) ||| E) >>> (b' * 4)) &&& 0xF =
      (E >>> (b' * 4)) &&& 0xF := by
  have h15 : (0xF : ℕ) = 2 ^ 4 - 1 := rfl
  apply Nat.eq_of_testBit_eq
  intro i
  rw [h15]
  simp only [Nat.testBit_and, Nat.testBit_shiftRight, Nat.testBit_or,
    Nat.testBit_shiftLeft, Nat.testBit_two_pow_sub_one]
  by_cases hi : i < 4
  · have hc : ¬ (b * 4 ≤ b' * 4 + i) := by omega
    simp [hi, hc]
  · simp [hi]

lemma decodeLoop_key_eq (k k' : HilbertIndex) : ∀ (L : List ℕ),
    (∀ b ∈ L, b < 16) →
    (∀ b ∈ L, (k.low >>> (b * 4)) &&& 0xF = (k'.low >>> (b * 4)) &&& 0xF) →
    ∀ (st : (Fin 4 → ℕ) × RotationState),
      decodeLoop k L st = decodeLoop k' L st := by
  intro L
  induction L with
  | nil => intro _ _ st; rfl
  | cons bit rest ih =>
      intro hL hext st
      obtain ⟨coords, s⟩ := st
      have hb : bit < 16 := hL bit (by simp)
      simp only [decodeLoop]
      rw [if_pos (by omega : bit * 4 < 64), if_pos (by omega : bit * 4 < 64)]
      rw [hext bit (by simp)]
      exact ih (fun b hb' => hL b (by simp [hb']))
        (fun b hb' => hext b (by simp [hb'])) _

/- ============  C3, C10 — the level-loop round trip  ============ -/

/-- Bit mask of the levels in a list: one bit per processed level. -/
def levelsMask : List ℕ → ℕ
  | [] => 0
  | b :: rest => (1 <<< b) ||| levelsMask rest

lemma decode_encode (c : Fin 4 → ℕ) : ∀ (L : List ℕ),
    List.Pairwise (· > ·) L → (∀ b ∈ L, b < 16) →
    ∀ (s : RotationState), s.flip < 16 → ∀ (a : Fin 4 → ℕ),
      ((decodeLoop (encodeLoop c L (⟨0, 0⟩, s)).1 L (a, s)).1) =
        fun j => a j ||| (c j &&& levelsMask L) := by
  intro L
  induction L with
  | nil =>
      intro _ _ s _ a
      funext j
      simp [decodeLoop, levelsMask]
  | cons bit rest ih =>
      intro hpw hlt s hflip a
      obtain ⟨hgt, hpw'⟩ := List.pairwise_cons.mp hpw
      have hb : bit < 16 := hlt bit (by simp)
      have hrest16 : ∀ b ∈ rest, b < 16 := fun b hb' => hlt b (by simp [hb'])
      have h64 : bit * 4 < 64 := by omega
      have hrawlt : gatherBits c s.perm bit < 16 := gatherBits_lt c s.perm bit
      have hbits0lt : gatherBits c s.perm bit ^^^ s.flip < 16 :=
        xor_lt_16 _ _ hrawlt hflip
      have hglt : binary_to_gray_4 (gatherBits c s.perm bit ^^^ s.flip) < 16 :=
        binary_to_gray_4_lt _ hbits0lt
      have hflip' : (update_rotation s
          (binary_to_gray_4 (gatherBits c s.perm bit ^^^ s.flip))).flip < 16 :=
        update_rotation_flip_lt s _ hflip
      have henc : encodeLoop c (bit :: rest) (⟨0, 0⟩, s) =
          encodeLoop c rest
            (⟨0, 0 ||| (binary_to_gray_4 (gatherBits c s.perm bit ^^^ s.flip) <<<
                (bit * 4))⟩,
             update_rotation s
               (binary_to_gray_4 (gatherBits c s.perm bit ^^^ s.flip))) := by
        simp only [encodeLoop]
        rw [if_pos h64]
      have hkey_low : (encodeLoop c (bit :: rest) (⟨0, 0⟩, s)).1.low =
          (binary_to_gray_4 (gatherBits c s.perm bit ^^^ s.flip) <<< (bit * 4)) |||
            (encodeLoop c rest (⟨0, 0⟩, update_rotation s
              (binary_to_gray_4 (gatherBits c s.perm bit ^^^ s.flip)))).1.low := by
        rw [henc, encodeLoop_low_or c rest hrest16]
        simp
      have hE_lt : (encodeLoop c rest (⟨0, 0⟩, update_rotation s
          (binary_to_gray_4 (gatherBits c s.perm bit ^^^ s.flip)))).1.low <
            2 ^ (bit * 4) :=
        encodeLoop_low_lt c rest bit (fun b hb' => hgt b hb') (by omega) _ hflip'
      have hgray : ((encodeLoop c (bit :: rest) (⟨0, 0⟩, s)).1.low >>> (bit * 4))
          &&& 0xF = binary_to_gray_4 (gatherBits c s.perm bit ^^^ s.flip) := by
        rw [hkey_low]
        exact extract_top _ _ bit hglt hE_lt
      have hext : ∀ b' ∈ rest,
          ((encodeLoop c (bit :: rest) (⟨0, 0⟩, s)).1.low >>> (b' * 4)) &&& 0xF =
          ((encodeLoop c rest (⟨0, 0⟩, update_rotation s
            (binary_to_gray_4 (gatherBits c s.perm bit ^^^ s.flip)))).1.low >>>
              (b' * 4)) &&& 0xF := by
        intro b' hb'
        rw [hkey_low]
        exact extract_low _ _ bit b' (hgt b' hb')
      simp only [decodeLoop]
      rw [if_pos h64, hgray, gray_roundtrip_4 _ hbits0lt, Nat.xor_cancel_right]
      rw [decodeLoop_key_eq _ _ rest hrest16 hext _]
      rw [ih hpw' hrest16 _ hflip']
      funext j
      dsimp only
      rw [scatterBits_apply]
      have hcond := gatherBits_and c s.perm bit (s.perm.symm j)
      rw [Equiv.apply_symm_apply] at hcond
      simp only [levelsMask]
      by_cases hcj : c j &&& (1 <<< bit) ≠ 0
      · rw [if_pos (hcond.mpr hcj)]
        have h2 : c j &&& (1 <<< bit) = 1 <<< bit := by
          rw [Nat.one_shiftLeft] at hcj ⊢
          rw [Nat.and_two_pow] at hcj ⊢
          rcases hcb : (c j).testBit bit
          · rw [hcb] at hcj
            simp at hcj
          · simp
        rw [Nat.and_or_distrib_left, h2, Nat.lor_assoc]
      · rw [if_neg (fun hc => hcj (hcond.mp hc))]
        have h2 : c j &&& (1 <<< bit) = 0 := not_not.mp hcj
        rw [Nat.and_or_distrib_left, h2]
        simp

lemma hilbertLevels_pairwise : List.Pairwise (· > ·) hilbertLevels := by decide

lemma hilbertLevels_lt : ∀ b ∈ hilbertLevels, b < 16 := by decide

lemma levelsMask_hilbertLevels : levelsMask hilbertLevels = 65535 := by decide

lemma intRoundtrip (c : Fin 4 → ℕ) (hc : ∀ j, c j < 65536) :
    (decodeLoop (encodeLoop c hilbertLevels (⟨0, 0⟩, INITIAL_STATE)).1
      hilbertLevels ((fun _ => 0), INITIAL_STATE)).1 = c := by
  rw [decode_encode c hilbertLevels hilbertLevels_pairwise hilbertLevels_lt
    INITIAL_STATE (by decide) (fun _ => 0)]
  funext j
  have h16 : (65535 : ℕ) = 2 ^ 16 - 1 := by norm_num
  simp only [levelsMask_hilbertLevels, h16]
  rw [Nat.and_pow_two_sub_one_of_lt_two_pow (by simpa using hc j)]
  simp

/- ============  C3, C10 — quantization round trip and assembly  ============ -/

lemma floor_half_rat : ⌊(0.5 : ℚ)⌋ = 0 := by
  rw [Int.floor_eq_iff]
  norm_num

lemma quantize_coord_le (v lo hi : ℚ) : quantize_coord v lo hi ≤ 65535 := by
  unfold quantize_coord
  dsimp only
  have hm : ((1 <<< HILBERT_BITS_PER_DIM) - 1 : ℕ) = 65535 := by decide
  rw [hm]
  set n0 := (v - lo) / (hi - lo) with hn0
  have hb : (0 : ℚ) ≤ (if (if n0 < 0 then 0 else n0) > 1 then 1
      else if n0 < 0 then 0 else n0) ∧
      (if (if n0 < 0 then 0 else n0) > 1 then 1
      else if n0 < 0 then 0 else n0) ≤ 1 := by
    by_cases h1 : n0 < 0
    · norm_num [h1]
    · simp only [h1, if_false]
      by_cases h2 : n0 > 1
      · simp [h2]
      · simp only [h2, if_false]
        exact ⟨not_lt.mp h1, not_lt.mp h2⟩
  rw [Int.toNat_le]
  calc ⌊(if (if n0 < 0 then 0 else n0) > 1 then 1
        else if n0 < 0 then 0 else n0) * ((65535 : ℕ) : ℚ) + 0.5⌋
      ≤ ⌊(65535 : ℚ) + 0.5⌋ := by
        apply Int.floor_le_floor
        push_cast
        nlinarith [hb.1, hb.2]
    _ = 65535 := by
        rw [show ((65535 : ℚ) + 0.5) = ((65535 : ℤ) : ℚ) + 0.5 by norm_num,
          Int.floor_int_add, floor_half_rat]
        norm_num

lemma quantize_dequantize (n : ℕ) (hn : n ≤ 65535) :
    quantize_coord (dequantize_coord n (-1) 1) (-1) 1 = n := by
  have hm : ((1 <<< HILBERT_BITS_PER_DIM) - 1 : ℕ) = 65535 := by decide
  have hdq : dequantize_coord n (-1) 1 = (n : ℚ) / 65535 * 2 - 1 := by
    unfold dequantize_coord
    dsimp only
    rw [hm]
    push_cast
    ring
  have hv0 : (-1 : ℚ) ≤ dequantize_coord n (-1) 1 := by
    rw [hdq]
    have : (0 : ℚ) ≤ (n : ℚ) / 65535 := by positivity
    linarith
  have hv1 : dequantize_coord n (-1) 1 ≤ 1 := by
    rw [hdq]
    have : (n : ℚ) / 65535 ≤ 1 := by
      rw [div_le_one (by norm_num : (0:ℚ) < 65535)]
      exact_mod_cast hn
    linarith
  rw [quantize_eval_in_range _ hv0 hv1]
  have harg : (dequantize_coord n (-1) 1 + 1) / 2 * 65535 = (n : ℚ) := by
    rw [hdq]
    field_simp
    ring
  rw [harg, show ((n : ℚ) + 0.5) = ((n : ℤ) : ℚ) + 0.5 by push_cast; ring,
    Int.floor_int_add, floor_half_rat]
  simp

/-- C10: the 128-bit key degenerates to its low half — for every input,
coords_to_hilbert leaves the high word 0 (every 4-bit level lands at
shift 4·bit ≤ 60), and hilbert_to_coords never reads the high word: its
output depends only on the low half. -/
theorem c10_high_word_zero (x y z m : ℚ) (high low : ℕ) :
    (coords_to_hilbert x y z m).high = 0 ∧
    hilbert_to_coords ⟨high, low⟩ = hilbert_to_coords ⟨0, low⟩ := by
  constructor
  · unfold coords_to_hilbert
    exact encodeLoop_high _ hilbertLevels hilbertLevels_lt ⟨0, 0⟩ INITIAL_STATE
  · unfold hilbert_to_coords
    rw [decodeLoop_key_eq ⟨high, low⟩ ⟨0, low⟩ hilbertLevels hilbertLevels_lt
      (fun b _ => rfl) _]

/-- C3: the Hilbert codec is bijective modulo quantization — re-encoding
the decode of an encoded key reproduces the key exactly, for every real
input (x,y,z,m) (in particular on [−1,1]⁴); every key in the image of
coords_to_hilbert is a fixed point of encode ∘ decode. -/
theorem c3_encode_decode_encode_fixed_point (x y z m : ℚ) :
    (fun p : ℚ × ℚ × ℚ × ℚ => coords_to_hilbert p.1 p.2.1 p.2.2.1 p.2.2.2)
      (hilbert_to_coords (coords_to_hilbert x y z m)) =
      coords_to_hilbert x y z m := by
  unfold coords_to_hilbert hilbert_to_coords
  dsimp only
  set qc : Fin 4 → ℕ :=
    ![quantize_coord x (-1) 1, quantize_coord y (-1) 1,
      quantize_coord z (-1) 1, quantize_coord m (-1) 1] with hqcdef
  have hqlt : ∀ j, qc j < 65536 := by
    intro j
    have hle : qc j ≤ 65535 := by
      fin_cases j <;> exact quantize_coord_le _ _ _
    omega
  have hcoords := intRoundtrip qc hqlt
  rw [hcoords]
  have hcfun : ![quantize_coord (dequantize_coord (qc 0) (-1) 1) (-1) 1,
      quantize_coord (dequantize_coord (qc 1) (-1) 1) (-1) 1,
      quantize_coord (dequantize_coord (qc 2) (-1) 1) (-1) 1,
      quantize_coord (dequantize_coord (qc 3) (-1) 1) (-1) 1] = qc := by
    funext j
    fin_cases j
    · exact quantize_dequantize (qc 0) (by have := hqlt 0; omega)
    · exact quantize_dequantize (qc 1) (by have := hqlt 1; omega)
    · exact quantize_dequantize (qc 2) (by have := hqlt 2; omega)
    · exact quantize_dequantize (qc 3) (by have := hqlt 3; omega)
  rw [hcfun]

end HartMCP
